import Mathlib

/-!
Verification of the quota-aggregation and dashboard state engine found in
`public/js/data-store.js` and `public/js/components/dashboard.js`.

The JavaScript is shallowly embedded:
* JS numbers used as counts/percentages become `ℤ`/`ℕ`; `remainingFraction`
  values become `Option ℚ` (`none` models JS `null`).
* JS objects used as string-keyed maps become association lists
  `List (String × _)` preserving insertion order, as JS object iteration does.
* `Math.round x` is `⌊x + 1/2⌋` (JS rounds half-up); division results that are
  rounded immediately are computed with integer floor division (`Int` `/` on a
  positive divisor) and bridged to the `⌊·⌋` form by `avgRound_eq_jround`.
* Timestamps are modelled as integers (milliseconds), as produced by
  `Date.getTime()`.
-/

/-- JS `Math.round` on a (non-NaN) rational: round half toward positive
infinity, i.e. `⌊q + 1/2⌋`. -/
def jround (q : ℚ) : ℤ := ⌊q + 1/2⌋

/-- Embedding of `Math.round(totalQuotaSum / validAccountCount)` from
`computeQuotaRows`: the rounded mean of an integer sum over a positive count,
computed in integer arithmetic (`Int` division is floor division for a
positive divisor) so that it evaluates by kernel reduction.
`avgRound_eq_jround` proves it equal to `jround` of the rational quotient. -/
def avgRound (sum : ℤ) (count : ℕ) : ℤ := (2 * sum + (count : ℤ)) / ((2 * count : ℕ) : ℤ)

theorem avgRound_eq_jround (s : ℤ) (c : ℕ) (hc : 0 < c) :
    avgRound s c = jround ((s : ℚ) / (c : ℚ)) := by
  rw [avgRound, jround, ← Rat.floor_intCast_div_natCast]
  congr 1
  have hc' : (c : ℚ) ≠ 0 := by positivity
  push_cast
  field_simp
  ring

theorem jround_le_jround {a b : ℚ} (h : a ≤ b) : jround a ≤ jround b := by
  apply Int.floor_le_floor
  linarith

theorem jround_intCast (n : ℤ) : jround (n : ℚ) = n := by
  rw [jround, add_comm, Int.floor_add_int]
  norm_num

theorem jround_nonneg {q : ℚ} (h : 0 ≤ q) : 0 ≤ jround q := by
  rw [jround]
  positivity

theorem jround_le_of_le_int {q : ℚ} {n : ℤ} (h : q ≤ (n : ℚ)) : jround q ≤ n := by
  calc jround q ≤ jround (n : ℚ) := jround_le_jround h
  _ = n := jround_intCast n

/-- Bounds for a percentage `Math.round(f * 100)` when `f ∈ [0, 1]`. -/
theorem jround_pct_bounds {f : ℚ} (h0 : 0 ≤ f) (h1 : f ≤ 1) :
    0 ≤ jround (f * 100) ∧ jround (f * 100) ≤ 100 := by
  refine ⟨jround_nonneg (by positivity), jround_le_of_le_int ?_⟩
  push_cast
  nlinarith

/-- JS `String.prototype.toLowerCase` restricted to its per-character action
(ASCII-adequate), written over the character list so it kernel-evaluates. -/
def lowerStr (s : String) : String := ⟨s.data.map Char.toLower⟩

/-- Helper for `containsSub`: does the first list occur as a leading segment of
the second? -/
def leadsList : List Char → List Char → Bool
  | [], _ => true
  | _ :: _, [] => false
  | a :: as, b :: bs => a == b && leadsList as bs

/-- JS `String.prototype.includes`, over character lists: the pattern occurs
as a contiguous run somewhere in the string (the empty pattern always does). -/
def containsSub : List Char → List Char → Bool
  | [], pat => pat.isEmpty
  | a :: rest, pat => leadsList pat (a :: rest) || containsSub rest pat

/-- JS `s.includes(pat)` on strings. -/
def strIncludes (s pat : String) : Bool := containsSub s.data pat.data

/-- JS `String.prototype.split` with a single-character separator, over
character lists. -/
def splitOnCharL (c : Char) : List Char → List (List Char)
  | [] => [[]]
  | x :: xs =>
    if x = c then [] :: splitOnCharL c xs
    else
      match splitOnCharL c xs with
      | [] => [[x]]
      | h :: t => (x :: h) :: t

/-- JS `s.split(c)` on strings, for a one-character separator `c`. -/
def strSplitChar (c : Char) (s : String) : List String :=
  (splitOnCharL c s.data).map fun l => ⟨l⟩

/-- JS `acc.email.split('@')[0]` from `computeQuotaRows`. -/
def emailLocal (email : String) : String := (strSplitChar '@' email).headD ""

/-- Lookup in a JS object modelled as an insertion-ordered association list:
`obj[key]`, `undefined` becoming `none`. -/
def lookupKV (l : List (String × α)) (k : String) : Option α :=
  (l.find? fun p => p.1 == k).map (·.2)

/-- One per-account/per-model quota limit: `{ remainingFraction, resetTime }`.
`remainingFraction` is `null` or a number; `resetTime` is `null` or a
timestamp. -/
structure Limit where
  remainingFraction : Option ℚ
  resetTime : Option ℤ
  deriving DecidableEq

/-- One upstream account from the `/account-limits` snapshot. -/
structure Account where
  email : String
  enabled : Bool
  status : String
  limits : List (String × Limit)
  deriving DecidableEq

/-- Per-model configuration entry (`modelConfig[modelId]`); each field may be
absent (JS `undefined`). -/
structure MConfig where
  hidden : Option Bool
  pinned : Option Bool
  deriving DecidableEq

/-- JS `this.modelConfig[modelId] || {}`. -/
def lookupConfig (cfg : List (String × MConfig)) (modelId : String) : MConfig :=
  (lookupKV cfg modelId).getD ⟨none, none⟩

/-- The `filters` state of the data store. -/
structure Filters where
  account : String
  family : String
  search : String
  deriving DecidableEq

/-- Embedding of `getModelFamily` from `data-store.js`. -/
def getModelFamily (modelId : String) : String :=
  let lower := lowerStr modelId
  if strIncludes lower "claude" then "claude"
  else if strIncludes lower "gemini" then "gemini"
  else "other"

/-- One entry pushed onto `quotaInfo` inside `computeQuotaRows`. -/
structure QuotaInfoEntry where
  email : String
  fullEmail : String
  pct : ℤ
  resetTime : Option ℤ
  deriving DecidableEq

/-- One row of the filtered models table produced by `computeQuotaRows`.
The `resetIn` display string of the original is produced by the external
`window.utils.formatTimeUntil` helper (outside this core) from
`minResetTime`, and is not modelled. -/
structure QuotaRow where
  modelId : String
  displayName : String
  family : String
  minQuota : ℤ
  avgQuota : ℤ
  minResetTime : Option ℤ
  quotaInfo : List QuotaInfoEntry
  pinned : Bool
  hidden : Bool
  deriving DecidableEq

/-- The percent contributed by one limit:
`limit.remainingFraction !== null ? Math.round(limit.remainingFraction * 100) : 0`. -/
def pctOfLimit (l : Limit) : ℤ :=
  match l.remainingFraction with
  | some f => jround (f * 100)
  | none => 0

/-- Accumulator of the per-account loop inside `computeQuotaRows`:
`quotaInfo`, `minQuota`, `totalQuotaSum`, `validAccountCount`,
`minResetTime`. -/
structure QAcc where
  quotaInfo : List QuotaInfoEntry
  minQuota : ℤ
  totalQuotaSum : ℤ
  validAccountCount : ℕ
  minResetTime : Option ℤ
  deriving DecidableEq

/-- The initial accumulator of the per-account loop (`minQuota` starts at
`100`). -/
def qInit : QAcc := ⟨[], 100, 0, 0, none⟩

/-- One iteration of `this.accounts.forEach(acc => ...)` inside
`computeQuotaRows`. -/
def qStep (filters : Filters) (modelId : String) (st : QAcc) (acc : Account) : QAcc :=
  if filters.account ≠ "all" ∧ acc.email ≠ filters.account then st
  else
    match lookupKV acc.limits modelId with
    | none => st
    | some limit =>
      let pct := pctOfLimit limit
      { quotaInfo := st.quotaInfo ++
          [⟨emailLocal acc.email, acc.email, pct, limit.resetTime⟩],
        minQuota := min st.minQuota pct,
        totalQuotaSum := st.totalQuotaSum + pct,
        validAccountCount := st.validAccountCount + 1,
        minResetTime :=
          match limit.resetTime, st.minResetTime with
          | none, cur => cur
          | some t, none => some t
          | some t, some cur => if t < cur then some t else some cur }

/-- The per-model body of `computeQuotaRows` (`models.forEach(modelId => ...)`),
returning the row pushed for this model, if any. -/
def rowForModel (cfg : List (String × MConfig)) (accounts : List Account)
    (filters : Filters) (showExhausted : Bool) (modelId : String) : Option QuotaRow :=
  let config := lookupConfig cfg modelId
  let family := getModelFamily modelId
  let isHidden := config.hidden.getD (family == "other" || family == "unknown")
  if isHidden then none
  else if filters.family ≠ "all" ∧ filters.family ≠ family then none
  else if filters.search ≠ "" ∧
      strIncludes (lowerStr modelId) (lowerStr filters.search) = false then none
  else
    let st := accounts.foldl (qStep filters modelId) qInit
    if st.quotaInfo = [] then none
    else
      let avgQuota :=
        if st.validAccountCount > 0 then avgRound st.totalQuotaSum st.validAccountCount else 0
      if showExhausted = false ∧ st.minQuota = 0 then none
      else
        some { modelId := modelId, displayName := modelId, family := family,
               minQuota := st.minQuota, avgQuota := avgQuota,
               minResetTime := st.minResetTime, quotaInfo := st.quotaInfo,
               pinned := config.pinned.getD false, hidden := isHidden }

/-- The comparator of the final `rows.sort` in `computeQuotaRows`, as a strict
"must come before" test: `rowBefore a b` holds when the JS comparator returns a
negative number on `(a, b)` (pinned first, then larger `avgQuota` first). -/
def rowBefore (a b : QuotaRow) : Bool :=
  if a.pinned != b.pinned then a.pinned else decide (b.avgQuota < a.avgQuota)

/-- Stable insertion step used to model the JS stable sort of rows. -/
def insertRow (x : QuotaRow) : List QuotaRow → List QuotaRow
  | [] => [x]
  | y :: ys => if rowBefore y x then y :: insertRow x ys else x :: y :: ys

/-- The JS stable sort of `rows` with the pinned-then-avgQuota comparator,
modelled by stable insertion sort. -/
def sortRows (l : List QuotaRow) : List QuotaRow := l.foldr insertRow []

/-- Embedding of `computeQuotaRows` from `data-store.js`. The `showExhausted`
setting is read from the settings store in the source and is a parameter
here. -/
def computeQuotaRows (models : List String) (cfg : List (String × MConfig))
    (accounts : List Account) (filters : Filters) (showExhausted : Bool) : List QuotaRow :=
  sortRows (models.filterMap (rowForModel cfg accounts filters showExhausted))

/-- One row of `getUnfilteredQuotaData` output: `{ modelId, family, quotaInfo }`
with `quotaInfo` a list of `{ pct }` records, modelled as the list of
percents. -/
structure URow where
  modelId : String
  family : String
  quotaInfo : List ℤ
  deriving DecidableEq

/-- One iteration of the account loop inside `getUnfilteredQuotaData` (no
account filter). -/
def uStep (modelId : String) (qi : List ℤ) (acc : Account) : List ℤ :=
  match lookupKV acc.limits modelId with
  | none => qi
  | some limit => qi ++ [pctOfLimit limit]

/-- The per-model body of `getUnfilteredQuotaData`. -/
def uRowForModel (cfg : List (String × MConfig)) (accounts : List Account)
    (showHidden : Bool) (modelId : String) : Option URow :=
  let config := lookupConfig cfg modelId
  let family := getModelFamily modelId
  let isHidden := config.hidden.getD (family == "other" || family == "unknown")
  if isHidden ∧ showHidden = false then none
  else
    let qi := accounts.foldl (uStep modelId) []
    if qi = [] then none
    else some { modelId := modelId, family := family, quotaInfo := qi }

/-- Embedding of `getUnfilteredQuotaData` from `data-store.js`; the
`showHiddenModels` setting is a parameter. -/
def getUnfilteredQuotaData (models : List String) (cfg : List (String × MConfig))
    (accounts : List Account) (showHidden : Bool) : List URow :=
  models.filterMap (uRowForModel cfg accounts showHidden)

/-- The dashboard summary counters set by `updateStats`. -/
structure Stats where
  total : ℕ
  active : ℕ
  limited : ℕ
  deriving DecidableEq

/-- The "core model" test of `updateStats`:
`/sonnet|opus|pro|flash/i.test(id)`. -/
def isCore (id : String) : Bool :=
  let lower := lowerStr id
  strIncludes lower "sonnet" || strIncludes lower "opus" ||
    strIncludes lower "pro" || strIncludes lower "flash"

/-- JS `l && l.remainingFraction > 0.05` for one limit entry (`null > 0.05` is
false in JS). -/
def limitOverFive (l : Limit) : Bool :=
  match l.remainingFraction with
  | some f => decide ((0.05 : ℚ) < f)
  | none => false

/-- The per-account classification of `updateStats`: does an enabled,
`status == "ok"` account count as active? -/
def accountActive (acc : Account) : Bool :=
  let hasActiveCore := acc.limits.any fun p => limitOverFive p.2 && isCore p.1
  if hasActiveCore then true
  else
    let hasAnyCore := acc.limits.any fun p => isCore p.1
    if hasAnyCore then false
    else acc.limits.any fun p => limitOverFive p.2

/-- Embedding of `updateStats` from `dashboard.js`: only accounts with
`enabled !== false` are counted; each of them increments `active` or
`limited`. -/
def updateStats (accounts : List Account) : Stats :=
  let enabledAccounts := accounts.filter (·.enabled)
  let counters := enabledAccounts.foldl
    (fun (al : ℕ × ℕ) acc =>
      if acc.status = "ok" then
        if accountActive acc then (al.1 + 1, al.2) else (al.1, al.2 + 1)
      else (al.1, al.2 + 1))
    (0, 0)
  { total := enabledAccounts.length, active := counters.1, limited := counters.2 }

/-- A value stored under one top-level key of an hourly history bucket: either
a plain number (legacy flat format / the `_total`-`total` counters) or a
family object mapping model names to counts (plus `_subtotal`). -/
inductive BVal where
  | num (n : ℤ)
  | obj (entries : List (String × ℤ))
  deriving DecidableEq

/-- One hourly history bucket: an insertion-ordered JS object. -/
abbrev Bucket := List (String × BVal)

/-- Reading a numeric field of a bucket (`hourData._total`, `hourData.total`):
`none` when the key is absent or does not hold a number. -/
def bucketNumField (b : Bucket) (k : String) : Option ℤ :=
  match lookupKV b k with
  | some (BVal.num n) => some n
  | _ => none

/-- JS logical-or fallback on a numeric field: `a || dflt` where a number `0`
and an absent field are both falsy. -/
def jsNumOr (a : Option ℤ) (dflt : ℤ) : ℤ :=
  match a with
  | some n => if n = 0 then dflt else n
  | none => dflt

/-- The per-bucket amount added to the running totals by `processHistory`:
`hourData._total || hourData.total || 0`. -/
def hourTotalOf (b : Bucket) : ℤ :=
  jsNumOr (bucketNumField b "_total") (jsNumOr (bucketNumField b "total") 0)

/-- The `usageStats` record built by `processHistory`. -/
structure UsageStats where
  total : ℤ
  today : ℤ
  thisHour : ℤ
  deriving DecidableEq

/-- The totals-accumulation part of `processHistory` (`dashboard.js`), over the
bucket series with its timestamps, given the precomputed start-of-day and
current-hour timestamps. -/
def processUsageStats (history : List (ℤ × Bucket)) (todayStart currentHour : ℤ) : UsageStats :=
  history.foldl
    (fun us p =>
      let hourTotal := hourTotalOf p.2
      { total := us.total + hourTotal,
        today := if p.1 ≥ todayStart then us.today + hourTotal else us.today,
        thisHour := if p.1 = currentHour then hourTotal else us.thisHour })
    ⟨0, 0, 0⟩

/-- The outcome of one `fetchHistory` call: either the request threw (network
failure) or it produced a response with an `ok` flag and a parsed body. -/
inductive HistoryFetch where
  | thrown
  | resp (ok : Bool) (history : List (ℤ × Bucket))
  deriving DecidableEq

/-- The externally visible effects of one `fetchHistory` call on the dashboard
component. -/
structure FetchOutcome where
  hasTrendData : Bool
  historyData : Option (List (ℤ × Bucket))
  processedHistory : Bool
  loggedError : Bool
  deriving DecidableEq

/-- Embedding of `fetchHistory` from `dashboard.js`, as a function of the fetch
outcome and the previous `stats.hasTrendData` flag. `historyData = some h`
means the component's `historyData` was overwritten with the response body;
`none` means it was left unchanged. -/
def fetchHistory (r : HistoryFetch) (hasTrend0 : Bool) : FetchOutcome :=
  match r with
  | .thrown => ⟨true, none, false, true⟩
  | .resp true h => ⟨true, some h, true, false⟩
  | .resp false _ => ⟨hasTrend0, none, false, false⟩

/-- The persisted chart-selection state of the dashboard. -/
structure SelState where
  displayMode : String
  selectedFamilies : List String
  selectedModels : List (String × List String)
  deriving DecidableEq

/-- JS assignment `obj[k] = v` on an insertion-ordered object: overwrite in
place if the key exists, else append. -/
def setKey : List (String × List String) → String → List String → List (String × List String)
  | [], k, v => [(k, v)]
  | e :: rest, k, v => if e.1 = k then (k, v) :: rest else e :: setKey rest k v

/-- JS `obj[k].push(v)` on an insertion-ordered object whose key `k` is
present (a no-op when it is not, which the callers below rule out). -/
def pushModelAt (m : List (String × List String)) (k v : String) :
    List (String × List String) :=
  match m with
  | [] => []
  | e :: rest => if e.1 = k then (e.1, e.2 ++ [v]) :: rest else e :: pushModelAt rest k v

/-- The body of the inner `forEach(model => ...)` of `autoSelectNew`: append
the model under its family unless it is already selected there. -/
def modelExtendStep (f : String) (st : SelState) (m : String) : SelState :=
  if m ∈ (lookupKV st.selectedModels f).getD [] then st
  else { st with selectedModels := pushModelAt st.selectedModels f m }

/-- The body of the outer `this.families.forEach(family => ...)` of
`autoSelectNew`: append the family if not selected, create its (empty) model
entry if missing, then run the inner model loop over the family's tree
models. -/
def famExtendStep (modelTree : List (String × List String)) (st : SelState)
    (f : String) : SelState :=
  let st1 :=
    if f ∈ st.selectedFamilies then st
    else { st with selectedFamilies := st.selectedFamilies ++ [f] }
  let st2 :=
    if (lookupKV st1.selectedModels f).isSome then st1
    else { st1 with selectedModels := st1.selectedModels ++ [(f, [])] }
  ((lookupKV modelTree f).getD []).foldl (modelExtendStep f) st2

/-- Embedding of `autoSelectNew` from `dashboard.js`. `families` and
`modelTree` are the component fields rebuilt by `processHistory` just before
the call. -/
def autoSelectNew (families : List String) (modelTree : List (String × List String))
    (s : SelState) : SelState :=
  if s.selectedFamilies = [] ∧ s.selectedModels = [] then
    { s with
      selectedFamilies := families,
      selectedModels :=
        families.foldl (fun m f => setKey m f ((lookupKV modelTree f).getD []))
          s.selectedModels }
  else
    families.foldl (famExtendStep modelTree) s

/-- Embedding of `deselectAll` from `dashboard.js` (persistence and the chart
rebuild are external effects). -/
def deselectAll (s : SelState) : SelState :=
  { s with selectedFamilies := [], selectedModels := [] }

/-- JS `usage[key] = (usage[key] || 0) + count` on the insertion-ordered
`usage` object. -/
def addUsage (u : List (String × ℤ)) (k : String) (c : ℤ) : List (String × ℤ) :=
  match u with
  | [] => [(k, c)]
  | e :: rest => if e.1 = k then (e.1, e.2 + c) :: rest else e :: addUsage rest k c

/-- The innermost loop of `autoSelectTopN`'s tally: one model entry of one
family object; `_subtotal` is skipped, anything else is accumulated under the
`family:model` key. -/
def usageModelStep (fam : String) (u : List (String × ℤ)) (me : String × ℤ) :
    List (String × ℤ) :=
  if me.1 = "_subtotal" then u else addUsage u (fam ++ ":" ++ me.1) me.2

/-- One top-level bucket entry of `autoSelectTopN`'s tally: only object values
under a key other than `_total` are walked. -/
def usageBucketStep (u : List (String × ℤ)) (e : String × BVal) : List (String × ℤ) :=
  match e.2 with
  | BVal.num _ => u
  | BVal.obj m => if e.1 = "_total" then u else m.foldl (usageModelStep e.1) u

/-- The usage tally of `autoSelectTopN`: per `family:model` key, the summed
counts over buckets of the trailing 24-hour window. -/
def usageEntries (history : List (ℤ × Bucket)) (now : ℤ) : List (String × ℤ) :=
  history.foldl
    (fun u p => if p.1 < now - 86400000 then u else p.2.foldl usageBucketStep u)
    []

/-- Stable insertion step for the descending-by-count sort of usage entries:
an element moves past earlier entries only when its count is strictly
larger, so equal counts keep their original order, exactly as the JS stable
`sort((a, b) => b[1] - a[1])`. -/
def insertUsage (x : String × ℤ) : List (String × ℤ) → List (String × ℤ)
  | [] => [x]
  | y :: ys => if x.2 < y.2 then y :: insertUsage x ys else x :: y :: ys

/-- The JS stable descending sort of the usage entries. -/
def sortUsage (l : List (String × ℤ)) : List (String × ℤ) := l.foldr insertUsage []

/-- The family part of a `family:model` usage key, as recovered by
`autoSelectTopN`'s `key.split(':')` destructuring. -/
def keyFam (k : String) : String := (strSplitChar ':' k).getD 0 ""

/-- The model part of a `family:model` usage key, as recovered by
`autoSelectTopN`'s `key.split(':')` destructuring. -/
def keyModel (k : String) : String := (strSplitChar ':' k).getD 1 ""

/-- The body of `sorted.forEach(([key]) => ...)` in `autoSelectTopN`: split
the key, append the family if missing, create its model entry if missing,
push the model. -/
def topSelStep (st : SelState) (kv : String × ℤ) : SelState :=
  let family := keyFam kv.1
  let model := keyModel kv.1
  let st1 :=
    if family ∈ st.selectedFamilies then st
    else { st with selectedFamilies := st.selectedFamilies ++ [family] }
  let st2 :=
    if (lookupKV st1.selectedModels family).isSome then st1
    else { st1 with selectedModels := st1.selectedModels ++ [(family, [])] }
  { st2 with selectedModels := pushModelAt st2.selectedModels family model }

/-- Embedding of `autoSelectTopN` from `dashboard.js` (persistence and the
chart rebuild are external effects). -/
def autoSelectTopN (history : List (ℤ × Bucket)) (now : ℤ) (n : ℕ) (s : SelState) : SelState :=
  let usage := usageEntries history now
  let sorted := (sortUsage usage).take n
  let s0 : SelState := { s with selectedFamilies := [], selectedModels := [] }
  sorted.foldl topSelStep s0

/-- The default `n = 5` of `autoSelectTopN(n = 5)`. -/
def autoSelectTopNDefault (history : List (ℤ × Bucket)) (now : ℤ) (s : SelState) : SelState :=
  autoSelectTopN history now 5 s

/-! Lemmas about the row sort. -/

theorem rowBefore_asymm {a b : QuotaRow} (h : rowBefore a b = true) : rowBefore b a = false := by
  unfold rowBefore at *
  cases ha : a.pinned <;> cases hb : b.pinned <;> simp_all <;> omega

theorem rowBefore_neg_trans {a b c : QuotaRow} (h1 : rowBefore b a = false)
    (h2 : rowBefore c b = false) : rowBefore c a = false := by
  unfold rowBefore at *
  cases ha : a.pinned <;> cases hb : b.pinned <;> cases hc : c.pinned <;> simp_all <;> omega

theorem insertRow_perm (x : QuotaRow) (l : List QuotaRow) :
    (insertRow x l).Perm (x :: l) := by
  induction l with
  | nil => simp [insertRow]
  | cons y ys ih =>
    simp only [insertRow]
    split
    · exact (ih.cons y).trans (List.Perm.swap x y ys)
    · exact List.Perm.refl _

theorem sortRows_perm (l : List QuotaRow) : (sortRows l).Perm l := by
  induction l with
  | nil => simp [sortRows]
  | cons x xs ih =>
    simp only [sortRows, List.foldr] at *
    exact (insertRow_perm x _).trans (ih.cons x)

theorem mem_sortRows {r : QuotaRow} {l : List QuotaRow} : r ∈ sortRows l ↔ r ∈ l :=
  (sortRows_perm l).mem_iff

theorem insertRow_pairwise (x : QuotaRow) (l : List QuotaRow)
    (h : l.Pairwise fun a b => rowBefore b a = false) :
    (insertRow x l).Pairwise fun a b => rowBefore b a = false := by
  induction l with
  | nil => simp [insertRow]
  | cons y ys ih =>
    rcases List.pairwise_cons.mp h with ⟨hy, hys⟩
    simp only [insertRow]
    split
    · rename_i hyx
      refine List.Pairwise.cons ?_ (ih hys)
      intro z hz
      rcases List.mem_cons.mp ((insertRow_perm x ys).mem_iff.mp hz) with rfl | hz2
      · exact rowBefore_asymm hyx
      · exact hy z hz2
    · rename_i hyx
      refine List.Pairwise.cons ?_ (List.Pairwise.cons hy hys)
      intro z hz
      rcases List.mem_cons.mp hz with rfl | hz2
      · simpa using hyx
      · exact rowBefore_neg_trans (by simpa using hyx) (hy z hz2)

theorem sortRows_pairwise (l : List QuotaRow) :
    (sortRows l).Pairwise fun a b => rowBefore b a = false := by
  induction l with
  | nil => simp [sortRows]
  | cons x xs ih =>
    simp only [sortRows, List.foldr] at *
    exact insertRow_pairwise x _ ih

theorem rowBefore_false_elim {a b : QuotaRow} (h : rowBefore b a = false) :
    (b.pinned = true → a.pinned = true) ∧ (a.pinned = b.pinned → b.avgQuota ≤ a.avgQuota) := by
  unfold rowBefore at h
  cases ha : a.pinned <;> cases hb : b.pinned <;> simp_all

/-- Claim C6: in `computeQuotaRows` output, every pinned row precedes every
unpinned row, and among rows of equal pinned status `avgQuota` is
non-increasing in output order. -/
theorem claim6_sort_order (models : List String) (cfg : List (String × MConfig))
    (accounts : List Account) (filters : Filters) (showExhausted : Bool) :
    (computeQuotaRows models cfg accounts filters showExhausted).Pairwise
      fun a b => (b.pinned = true → a.pinned = true) ∧
        (a.pinned = b.pinned → b.avgQuota ≤ a.avgQuota) := by
  exact (sortRows_pairwise _).imp fun h => rowBefore_false_elim h

/-! StatsComputer. -/

theorem statsFold_split (l : List Account) (a b : ℕ) :
    (l.foldl
      (fun (al : ℕ × ℕ) acc =>
        if acc.status = "ok" then
          if accountActive acc then (al.1 + 1, al.2) else (al.1, al.2 + 1)
        else (al.1, al.2 + 1))
      (a, b)).1 +
    (l.foldl
      (fun (al : ℕ × ℕ) acc =>
        if acc.status = "ok" then
          if accountActive acc then (al.1 + 1, al.2) else (al.1, al.2 + 1)
        else (al.1, al.2 + 1))
      (a, b)).2 = a + b + l.length := by
  induction l generalizing a b with
  | nil => simp
  | cons x xs ih =>
    simp only [List.foldl_cons, List.length_cons]
    split
    · split
      · rw [ih]; omega
      · rw [ih]; omega
    · rw [ih]; omega

/-- Claim C9: `updateStats` counts every enabled account in exactly one of
`active`/`limited` (`total = active + limited`, with `total` the number of
enabled accounts), and accounts with `enabled = false` are counted nowhere
(the stats of any account list equal the stats of its enabled sublist). -/
theorem claim9_stats_partition (accounts : List Account) :
    (updateStats accounts).total = (updateStats accounts).active + (updateStats accounts).limited ∧
    (updateStats accounts).total = (accounts.filter (·.enabled)).length ∧
    updateStats accounts = updateStats (accounts.filter (·.enabled)) := by
  refine ⟨?_, rfl, ?_⟩
  · simpa [updateStats] using (statsFold_split (accounts.filter (·.enabled)) 0 0).symm
  · simp [updateStats, List.filter_filter]

/-! HistoryProcessor totals. -/

theorem usageFold_total (history : List (ℤ × Bucket)) (todayStart currentHour : ℤ)
    (us : UsageStats) :
    (history.foldl
      (fun us p =>
        let hourTotal := hourTotalOf p.2
        { total := us.total + hourTotal,
          today := if p.1 ≥ todayStart then us.today + hourTotal else us.today,
          thisHour := if p.1 = currentHour then hourTotal else us.thisHour })
      us).total = us.total + (history.map fun p => hourTotalOf p.2).sum := by
  induction history generalizing us with
  | nil => simp
  | cons x xs ih =>
    simp only [List.foldl_cons, List.map_cons, List.sum_cons]
    rw [ih]
    simp
    omega

/-- Stated from the claim's words only, for comparison with the source's
`hourTotalOf`: nullish-coalescing accumulation `bucket._total ?? bucket.total ?? 0`
(a present, non-null `_total` is used even when it is `0`). -/
def nullishTotalSpec (b : Bucket) : ℤ :=
  match bucketNumField b "_total" with
  | some n => n
  | none =>
    match bucketNumField b "total" with
    | some n => n
    | none => 0

/-- Claim C4 counterexample: on a bucket with `_total = 0` and `total = 5` the
code adds `5` to the running total (logical-or fallthrough), while the claim's
nullish-coalescing semantics dictates `0`. -/
theorem claim4_cx :
    (processUsageStats [(0, [("_total", BVal.num 0), ("total", BVal.num 5)])] 1 1).total = 5 ∧
    nullishTotalSpec [("_total", BVal.num 0), ("total", BVal.num 5)] = 0 ∧ (5 : ℤ) ≠ 0 := by
  decide

/-- Claim C4 (amended): the amount added per bucket follows JS logical-or
semantics `bucket._total || bucket.total || 0`: a non-zero numeric `_total` is
used; a zero or absent `_total` falls through to `total` (so an explicit
`_total` of `0` does NOT yield `0` when `total` is non-zero); a zero or absent
`total` then yields `0`. The running total is the sum of these amounts. -/
theorem claim4_total_or_semantics (history : List (ℤ × Bucket)) (todayStart currentHour : ℤ) :
    (processUsageStats history todayStart currentHour).total
      = (history.map fun p => hourTotalOf p.2).sum ∧
    ∀ b : Bucket,
      (∀ n, bucketNumField b "_total" = some n → n ≠ 0 → hourTotalOf b = n) ∧
      ((bucketNumField b "_total" = none ∨ bucketNumField b "_total" = some 0) →
        ∀ n, bucketNumField b "total" = some n → n ≠ 0 → hourTotalOf b = n) ∧
      ((bucketNumField b "_total" = none ∨ bucketNumField b "_total" = some 0) →
        (bucketNumField b "total" = none ∨ bucketNumField b "total" = some 0) →
        hourTotalOf b = 0) := by
  refine ⟨by simpa [processUsageStats] using usageFold_total history todayStart currentHour ⟨0, 0, 0⟩, ?_⟩
  intro b
  refine ⟨?_, ?_, ?_⟩
  · intro n hn hne
    simp [hourTotalOf, jsNumOr, hn, hne]
  · intro h1 n hn hne
    rcases h1 with h1 | h1 <;> simp [hourTotalOf, jsNumOr, h1, hn, hne]
  · intro h1 h2
    rcases h1 with h1 | h1 <;> rcases h2 with h2 | h2 <;>
      simp [hourTotalOf, jsNumOr, h1, h2]

/-- Witness for claim C4's amended theorem at a concrete bucket. -/
theorem claim4_witness :
    hourTotalOf [("_total", BVal.num 7), ("total", BVal.num 3)] = 7 :=
  ((claim4_total_or_semantics [] 0 0).2 [("_total", BVal.num 7), ("total", BVal.num 3)]).1 7
    (by decide) (by decide)

/-- Claim C5 counterexample: a history fetch returning an HTTP response with
`ok = false` does not log anything and leaves `hasTrendData` false. -/
theorem claim5_cx :
    (fetchHistory (HistoryFetch.resp false []) false).hasTrendData = false ∧
    (fetchHistory (HistoryFetch.resp false []) false).loggedError = false := by
  decide

/-- Claim C5 (amended): a thrown (network/transport) history-fetch error is
only logged and still sets `hasTrendData` to true; an HTTP not-ok response is
silently ignored — nothing is logged, the body is not processed, and
`hasTrendData` keeps its previous value. -/
theorem claim5_fetch_failure (r : HistoryFetch) (h0 : Bool) :
    ((fetchHistory r h0).loggedError = true ↔ r = HistoryFetch.thrown) ∧
    ((fetchHistory r h0).processedHistory = true ↔ ∃ h, r = HistoryFetch.resp true h) ∧
    ((fetchHistory r h0).hasTrendData = true ↔
      (r = HistoryFetch.thrown ∨ (∃ h, r = HistoryFetch.resp true h) ∨ h0 = true)) ∧
    ∀ h, r = HistoryFetch.resp false h → fetchHistory r h0 = ⟨h0, none, false, false⟩ := by
  rcases r with _ | ⟨ok, h⟩
  · cases h0 <;> simp [fetchHistory]
  · cases ok <;> cases h0 <;> simp [fetchHistory]

/-- Witness for claim C5's amended theorem at a concrete not-ok response. -/
theorem claim5_witness :
    fetchHistory (HistoryFetch.resp false []) true = ⟨true, none, false, false⟩ :=
  (claim5_fetch_failure (HistoryFetch.resp false []) true).2.2.2 [] rfl

/-! Enabled-flag scope. -/

theorem foldl_qStep_map_enabled (filters : Filters) (mid : String) (accounts : List Account)
    (g : Account → Bool) (st : QAcc) :
    (accounts.map fun a => { a with enabled := g a }).foldl (qStep filters mid) st
      = accounts.foldl (qStep filters mid) st := by
  rw [List.foldl_map]
  have h : (fun (st : QAcc) a => qStep filters mid st { a with enabled := g a })
      = qStep filters mid := by
    funext st a
    cases a
    rfl
  rw [h]

theorem foldl_uStep_map_enabled (mid : String) (accounts : List Account)
    (g : Account → Bool) (qi : List ℤ) :
    (accounts.map fun a => { a with enabled := g a }).foldl (uStep mid) qi
      = accounts.foldl (uStep mid) qi := by
  rw [List.foldl_map]
  have h : (fun (qi : List ℤ) a => uStep mid qi { a with enabled := g a }) = uStep mid := by
    funext qi a
    cases a
    rfl
  rw [h]

theorem rowForModel_map_enabled (cfg : List (String × MConfig)) (accounts : List Account)
    (filters : Filters) (showExhausted : Bool) (g : Account → Bool) (m : String) :
    rowForModel cfg (accounts.map fun a => { a with enabled := g a }) filters showExhausted m
      = rowForModel cfg accounts filters showExhausted m := by
  simp only [rowForModel, foldl_qStep_map_enabled]

theorem uRowForModel_map_enabled (cfg : List (String × MConfig)) (accounts : List Account)
    (showHidden : Bool) (g : Account → Bool) (m : String) :
    uRowForModel cfg (accounts.map fun a => { a with enabled := g a }) showHidden m
      = uRowForModel cfg accounts showHidden m := by
  simp only [uRowForModel, foldl_uStep_map_enabled]

/-- Claim C1 counterexample: an account with `enabled = false` that holds a
limit for `"claude-a"` still shows up in the row's `quotaInfo` in
`computeQuotaRows` output and still contributes a pct entry to
`getUnfilteredQuotaData` output, contrary to the claim that it contributes to
no aggregate. -/
theorem claim1_cx :
    ((computeQuotaRows ["claude-a"] [] [⟨"x@y", false, "ok", [("claude-a", ⟨none, none⟩)]⟩]
        ⟨"all", "all", ""⟩ true).map fun r => r.quotaInfo.map (·.fullEmail)) = [["x@y"]] ∧
    ((getUnfilteredQuotaData ["claude-a"] [] [⟨"x@y", false, "ok", [("claude-a", ⟨none, none⟩)]⟩]
        false).map (·.quotaInfo)) = [[0]] := by
  decide

/-- Claim C1 (amended): accounts with `enabled = false` are excluded from
`updateStats` counters only — `updateStats` of any account list equals
`updateStats` of its enabled sublist — while `computeQuotaRows` and
`getUnfilteredQuotaData` never consult the `enabled` flag: arbitrarily
rewriting every account's `enabled` flag leaves their output unchanged, so a
disabled account with a Limit for a model contributes to `quotaInfo`,
`minQuota` and `avgQuota` exactly as an enabled one does. -/
theorem claim1_enabled_scope (models : List String) (cfg : List (String × MConfig))
    (accounts : List Account) (filters : Filters) (showExhausted showHidden : Bool)
    (g : Account → Bool) :
    updateStats accounts = updateStats (accounts.filter (·.enabled)) ∧
    computeQuotaRows models cfg (accounts.map fun a => { a with enabled := g a })
        filters showExhausted
      = computeQuotaRows models cfg accounts filters showExhausted ∧
    getUnfilteredQuotaData models cfg (accounts.map fun a => { a with enabled := g a })
        showHidden
      = getUnfilteredQuotaData models cfg accounts showHidden := by
  refine ⟨by simp [updateStats, List.filter_filter], ?_, ?_⟩
  · unfold computeQuotaRows
    congr 1
    apply List.filterMap_congr
    intro m _
    exact rowForModel_map_enabled cfg accounts filters showExhausted g m
  · unfold getUnfilteredQuotaData
    apply List.filterMap_congr
    intro m _
    exact uRowForModel_map_enabled cfg accounts showHidden g m

/-! Characterization of the per-account accumulation in `computeQuotaRows`. -/

/-- The contributing accounts of one model row: those passing the account
filter and holding a Limit for the model, paired with that Limit, in account
order. -/
def contribPairs (filters : Filters) (modelId : String) (accounts : List Account) :
    List (Account × Limit) :=
  accounts.filterMap fun a =>
    if filters.account ≠ "all" ∧ a.email ≠ filters.account then none
    else (lookupKV a.limits modelId).map fun l => (a, l)

/-- The percentages contributed by the contributing accounts. -/
def contribPcts (filters : Filters) (modelId : String) (accounts : List Account) : List ℤ :=
  (contribPairs filters modelId accounts).map fun p => pctOfLimit p.2

/-- The `minResetTime` accumulation over the contributing limits. -/
def resetFold (pairs : List (Account × Limit)) (init : Option ℤ) : Option ℤ :=
  pairs.foldl
    (fun cur p =>
      match p.2.resetTime, cur with
      | none, c => c
      | some t, none => some t
      | some t, some c => if t < c then some t else some c)
    init

theorem qfold_char (filters : Filters) (mid : String) (accounts : List Account) (st : QAcc) :
    accounts.foldl (qStep filters mid) st =
      { quotaInfo := st.quotaInfo ++ (contribPairs filters mid accounts).map
          (fun p => ⟨emailLocal p.1.email, p.1.email, pctOfLimit p.2, p.2.resetTime⟩),
        minQuota := (contribPcts filters mid accounts).foldl min st.minQuota,
        totalQuotaSum := st.totalQuotaSum + (contribPcts filters mid accounts).sum,
        validAccountCount := st.validAccountCount + (contribPcts filters mid accounts).length,
        minResetTime := resetFold (contribPairs filters mid accounts) st.minResetTime } := by
  induction accounts generalizing st with
  | nil => simp [contribPairs, contribPcts, resetFold]
  | cons a rest ih =>
    simp only [List.foldl_cons]
    rw [ih]
    by_cases hcond : filters.account ≠ "all" ∧ a.email ≠ filters.account
    · simp [qStep, hcond, contribPairs, contribPcts, resetFold, List.filterMap_cons]
    · cases hl : lookupKV a.limits mid with
      | none =>
        simp [qStep, hcond, hl, contribPairs, contribPcts, resetFold, List.filterMap_cons]
      | some limit =>
        simp [qStep, if_neg hcond, hl, contribPairs, contribPcts, resetFold,
          List.filterMap_cons, add_assoc, Nat.add_comm]

theorem lookupKV_some_mem {l : List (String × α)} {k : String} {v : α}
    (h : lookupKV l k = some v) : ∃ p ∈ l, p.1 = k ∧ p.2 = v := by
  unfold lookupKV at h
  cases hf : l.find? (fun p => p.1 == k) with
  | none => rw [hf] at h; simp at h
  | some p =>
    rw [hf] at h
    simp at h
    refine ⟨p, List.mem_of_find?_eq_some hf, ?_, h⟩
    have := List.find?_some hf
    simpa using this

theorem contribPairs_mem {filters : Filters} {mid : String} {accounts : List Account}
    {pr : Account × Limit} (h : pr ∈ contribPairs filters mid accounts) :
    pr.1 ∈ accounts ∧ ∃ q ∈ pr.1.limits, q.2 = pr.2 := by
  rcases List.mem_filterMap.mp h with ⟨a, ha, hf⟩
  split at hf
  · simp at hf
  · cases hl : lookupKV a.limits mid with
    | none => rw [hl] at hf; simp at hf
    | some limit =>
      rw [hl] at hf
      simp at hf
      rcases lookupKV_some_mem hl with ⟨q, hq, _, hqv⟩
      subst hf
      exact ⟨ha, q, hq, hqv⟩

/-! Folded minimum over `ℤ`. -/

theorem foldl_min_le_init (l : List ℤ) (a : ℤ) : l.foldl min a ≤ a := by
  induction l generalizing a with
  | nil => simp
  | cons x xs ih =>
    simp only [List.foldl_cons]
    exact le_trans (ih (min a x)) (min_le_left a x)

theorem foldl_min_le_mem (l : List ℤ) (a : ℤ) : ∀ p ∈ l, l.foldl min a ≤ p := by
  induction l generalizing a with
  | nil => simp
  | cons x xs ih =>
    intro p hp
    rcases List.mem_cons.mp hp with rfl | hp2
    · exact le_trans (foldl_min_le_init xs (min a p)) (min_le_right a p)
    · exact ih (min a x) p hp2

theorem foldl_min_mem_or (l : List ℤ) (a : ℤ) : l.foldl min a = a ∨ l.foldl min a ∈ l := by
  induction l generalizing a with
  | nil => simp
  | cons x xs ih =>
    simp only [List.foldl_cons]
    rcases ih (min a x) with h | h
    · rw [h]
      rcases min_choice a x with hm | hm
      · left; exact hm
      · right; rw [hm]; exact List.mem_cons_self x xs
    · right; exact List.mem_cons_of_mem x h

/-- Decidable form of the data model's constraint that every non-null
`remainingFraction` lies in `[0, 1]`. -/
def fracInRange (o : Option ℚ) : Bool :=
  match o with
  | none => true
  | some f => decide (0 ≤ f) && decide (f ≤ 1)

theorem pctOfLimit_bounds {l : Limit} (h : fracInRange l.remainingFraction = true) :
    0 ≤ pctOfLimit l ∧ pctOfLimit l ≤ 100 := by
  unfold pctOfLimit
  cases hf : l.remainingFraction with
  | none => simp
  | some f =>
    rw [hf] at h
    simp only [fracInRange, Bool.and_eq_true, decide_eq_true_eq] at h
    exact jround_pct_bounds h.1 h.2

theorem mem_computeQuotaRows {models : List String} {cfg : List (String × MConfig)}
    {accounts : List Account} {filters : Filters} {showExhausted : Bool} {r : QuotaRow}
    (h : r ∈ computeQuotaRows models cfg accounts filters showExhausted) :
    ∃ m ∈ models, rowForModel cfg accounts filters showExhausted m = some r := by
  unfold computeQuotaRows at h
  exact List.mem_filterMap.mp (mem_sortRows.mp h)

theorem rowForModel_some_char {cfg : List (String × MConfig)} {accounts : List Account}
    {filters : Filters} {showExhausted : Bool} {m : String} {r : QuotaRow}
    (h : rowForModel cfg accounts filters showExhausted m = some r) :
    r = { modelId := m, displayName := m, family := getModelFamily m,
          minQuota := (accounts.foldl (qStep filters m) qInit).minQuota,
          avgQuota :=
            if (accounts.foldl (qStep filters m) qInit).validAccountCount > 0 then
              avgRound (accounts.foldl (qStep filters m) qInit).totalQuotaSum
                (accounts.foldl (qStep filters m) qInit).validAccountCount
            else 0,
          minResetTime := (accounts.foldl (qStep filters m) qInit).minResetTime,
          quotaInfo := (accounts.foldl (qStep filters m) qInit).quotaInfo,
          pinned := (lookupConfig cfg m).pinned.getD false,
          hidden := (lookupConfig cfg m).hidden.getD
            (getModelFamily m == "other" || getModelFamily m == "unknown") } ∧
    (accounts.foldl (qStep filters m) qInit).quotaInfo ≠ [] := by
  unfold rowForModel at h
  dsimp only [] at h
  split at h
  · exact absurd h (by simp)
  · split at h
    · exact absurd h (by simp)
    · split at h
      · exact absurd h (by simp)
      · split at h
        · exact absurd h (by simp)
        · rename_i hne
          split at h
          · exact absurd h (by simp)
          · injection h with h
            exact ⟨h.symm, hne⟩

theorem row_props (models : List String) (cfg : List (String × MConfig))
    (accounts : List Account) (filters : Filters) (showExhausted : Bool)
    (hr : ∀ acc ∈ accounts, ∀ p ∈ acc.limits, fracInRange p.2.remainingFraction = true) :
    ∀ r ∈ computeQuotaRows models cfg accounts filters showExhausted,
      r.quotaInfo.map (·.pct) = contribPcts filters r.modelId accounts ∧
      contribPcts filters r.modelId accounts ≠ [] ∧
      (∀ p ∈ contribPcts filters r.modelId accounts, 0 ≤ p ∧ p ≤ 100) ∧
      (∀ p ∈ contribPcts filters r.modelId accounts, r.minQuota ≤ p) ∧
      r.minQuota ∈ contribPcts filters r.modelId accounts ∧
      r.avgQuota = jround (((contribPcts filters r.modelId accounts).sum : ℚ) /
        ((contribPcts filters r.modelId accounts).length : ℚ)) := by
  intro r hm
  rcases mem_computeQuotaRows hm with ⟨m, _, hsome⟩
  rcases rowForModel_some_char hsome with ⟨hr_eq, hne⟩
  subst hr_eq
  have hchar := qfold_char filters m accounts qInit
  dsimp only
  rw [hchar] at hne ⊢
  dsimp only [qInit] at hne ⊢
  simp only [List.nil_append, zero_add, add_zero] at hne ⊢
  have hPne : contribPcts filters m accounts ≠ [] := by
    intro hcp
    unfold contribPcts at hcp
    rcases List.map_eq_nil_iff.mp hcp with hpairs
    simp [hpairs] at hne
  have hbounds : ∀ p ∈ contribPcts filters m accounts, 0 ≤ p ∧ p ≤ 100 := by
    intro p hp
    rcases List.mem_map.mp hp with ⟨pair, hpair, rfl⟩
    rcases contribPairs_mem hpair with ⟨hacc, q, hq, hqv⟩
    have := hr pair.1 hacc q hq
    rw [hqv] at this
    exact pctOfLimit_bounds this
  have hmin_le : ∀ p ∈ contribPcts filters m accounts,
      (contribPcts filters m accounts).foldl min 100 ≤ p :=
    foldl_min_le_mem _ 100
  have hmin_mem : (contribPcts filters m accounts).foldl min 100
      ∈ contribPcts filters m accounts := by
    rcases foldl_min_mem_or (contribPcts filters m accounts) 100 with h100 | hmem
    · rcases List.exists_mem_of_ne_nil _ hPne with ⟨p0, hp0⟩
      have h1 := hmin_le p0 hp0
      have h2 := (hbounds p0 hp0).2
      have hp100 : p0 = 100 := le_antisymm h2 (h100 ▸ h1)
      rw [h100, ← hp100]
      exact hp0
    · exact hmem
  have hlen : 0 < (contribPcts filters m accounts).length :=
    List.length_pos.mpr hPne
  refine ⟨?_, hPne, hbounds, hmin_le, hmin_mem, ?_⟩
  · rw [List.map_map]
    rfl
  · rw [if_pos hlen, avgRound_eq_jround _ _ hlen]

/-- Claim C2: for every emitted row, the `quotaInfo` percents are exactly
`round(remainingFraction * 100)` (`null` contributing `0`, via `pctOfLimit`)
of the accounts passing the account filter that hold a Limit for the model,
`minQuota` is the minimum of those percentages, and `avgQuota` is the rounded
arithmetic mean of those percentages; provided every non-null
`remainingFraction` lies in `[0, 1]`. -/
theorem claim2_row_aggregates (models : List String) (cfg : List (String × MConfig))
    (accounts : List Account) (filters : Filters) (showExhausted : Bool)
    (hr : ∀ acc ∈ accounts, ∀ p ∈ acc.limits, fracInRange p.2.remainingFraction = true) :
    ∀ r ∈ computeQuotaRows models cfg accounts filters showExhausted,
      r.quotaInfo.map (·.pct) = contribPcts filters r.modelId accounts ∧
      (∀ p ∈ r.quotaInfo.map (·.pct), r.minQuota ≤ p) ∧
      r.minQuota ∈ r.quotaInfo.map (·.pct) ∧
      r.avgQuota = jround ((((r.quotaInfo.map (·.pct)).sum : ℤ) : ℚ) /
        ((r.quotaInfo.map (·.pct)).length : ℚ)) := by
  intro r hm
  rcases row_props models cfg accounts filters showExhausted hr r hm with
    ⟨heq, _, _, hle, hmem, havg⟩
  rw [heq]
  exact ⟨rfl, hle, hmem, havg⟩

/-- Claim C10: provided every non-null `remainingFraction` lies in `[0, 1]`,
every emitted row satisfies `0 ≤ minQuota ≤ avgQuota ≤ 100`. -/
theorem claim10_row_bounds (models : List String) (cfg : List (String × MConfig))
    (accounts : List Account) (filters : Filters) (showExhausted : Bool)
    (hr : ∀ acc ∈ accounts, ∀ p ∈ acc.limits, fracInRange p.2.remainingFraction = true) :
    ∀ r ∈ computeQuotaRows models cfg accounts filters showExhausted,
      0 ≤ r.minQuota ∧ r.minQuota ≤ r.avgQuota ∧ r.avgQuota ≤ 100 := by
  intro r hm
  rcases row_props models cfg accounts filters showExhausted hr r hm with
    ⟨_, hne, hbounds, hle, hmem, havg⟩
  have hlen : 0 < (contribPcts filters r.modelId accounts).length :=
    List.length_pos.mpr hne
  have hlenQ : (0 : ℚ) < ((contribPcts filters r.modelId accounts).length : ℚ) := by
    exact_mod_cast hlen
  have hsum_ge : r.minQuota * (contribPcts filters r.modelId accounts).length
      ≤ (contribPcts filters r.modelId accounts).sum := by
    have : ∀ l : List ℤ, (∀ p ∈ l, r.minQuota ≤ p) → r.minQuota * l.length ≤ l.sum := by
      intro l
      induction l with
      | nil => simp
      | cons x xs ih =>
        intro hl
        simp only [List.length_cons, List.sum_cons]
        have h1 := hl x (List.mem_cons_self x xs)
        have h2 := ih fun p hp => hl p (List.mem_cons_of_mem x hp)
        push_cast
        nlinarith
    exact this _ hle
  have hsum_le : (contribPcts filters r.modelId accounts).sum
      ≤ 100 * (contribPcts filters r.modelId accounts).length := by
    have : ∀ l : List ℤ, (∀ p ∈ l, p ≤ 100) → l.sum ≤ 100 * l.length := by
      intro l
      induction l with
      | nil => simp
      | cons x xs ih =>
        intro hl
        simp only [List.length_cons, List.sum_cons]
        have h1 := hl x (List.mem_cons_self x xs)
        have h2 := ih fun p hp => hl p (List.mem_cons_of_mem x hp)
        push_cast
        nlinarith
    exact this _ fun p hp => (hbounds p hp).2
  refine ⟨(hbounds _ hmem).1, ?_, ?_⟩
  · rw [havg]
    calc r.minQuota = jround ((r.minQuota : ℚ)) := (jround_intCast _).symm
    _ ≤ jround (((contribPcts filters r.modelId accounts).sum : ℚ) /
        ((contribPcts filters r.modelId accounts).length : ℚ)) := by
      apply jround_le_jround
      rw [le_div_iff₀ hlenQ]
      exact_mod_cast hsum_ge
  · rw [havg]
    apply jround_le_of_le_int
    rw [div_le_iff₀ hlenQ]
    exact_mod_cast hsum_le

/-- Concrete snapshot used by the witness theorems: one enabled account with a
single (null-fraction) limit for `"claude-a"`. -/
def wAccounts : List Account := [⟨"x@y", true, "ok", [("claude-a", ⟨none, none⟩)]⟩]

/-- Concrete pass-through filters used by the witness theorems. -/
def wFilters : Filters := ⟨"all", "all", ""⟩

/-- The row `computeQuotaRows` produces for `wAccounts` on model
`"claude-a"`. -/
def wRow : QuotaRow :=
  ⟨"claude-a", "claude-a", "claude", 0, 0, none, [⟨"x", "x@y", 0, none⟩], false, false⟩

/-- Witness for claim C2 at a concrete snapshot. -/
theorem claim2_witness :
    wRow.avgQuota = jround ((((wRow.quotaInfo.map (·.pct)).sum : ℤ) : ℚ) /
      ((wRow.quotaInfo.map (·.pct)).length : ℚ)) :=
  (claim2_row_aggregates ["claude-a"] [] wAccounts wFilters true (by decide) wRow
    (by decide)).2.2.2

/-- Witness for claim C10 at a concrete snapshot. -/
theorem claim10_witness :
    0 ≤ wRow.minQuota ∧ wRow.minQuota ≤ wRow.avgQuota ∧ wRow.avgQuota ≤ 100 :=
  claim10_row_bounds ["claude-a"] [] wAccounts wFilters true (by decide) wRow (by decide)

/-! Claim C7: default-hidden `other` models. -/

theorem ufold_char (mid : String) (accounts : List Account) (qi : List ℤ) :
    accounts.foldl (uStep mid) qi
      = qi ++ accounts.filterMap fun a => (lookupKV a.limits mid).map pctOfLimit := by
  induction accounts generalizing qi with
  | nil => simp
  | cons a rest ih =>
    simp only [List.foldl_cons, List.filterMap_cons]
    cases hl : lookupKV a.limits mid with
    | none => simp [uStep, hl, ih]
    | some limit => simp [uStep, hl, ih]

/-- Claim C7: a modelId whose family is `other` and whose config does not set
`hidden` never appears in `computeQuotaRows` output under any filters or
`showExhausted` setting, yet does appear in `getUnfilteredQuotaData` output
when `showHiddenModels` is true and at least one account has a Limit for
it. -/
theorem claim7_other_default_hidden (models : List String) (cfg : List (String × MConfig))
    (accounts : List Account) (mid : String)
    (hfam : getModelFamily mid = "other")
    (hcfg : (lookupConfig cfg mid).hidden = none)
    (hmem : mid ∈ models)
    (hacc : ∃ a ∈ accounts, (lookupKV a.limits mid).isSome = true) :
    (∀ filters showExhausted,
      ∀ r ∈ computeQuotaRows models cfg accounts filters showExhausted, r.modelId ≠ mid) ∧
    (∃ r ∈ getUnfilteredQuotaData models cfg accounts true, r.modelId = mid) := by
  constructor
  · intro filters showExhausted r hr hcontra
    rcases mem_computeQuotaRows hr with ⟨m, _, hsome⟩
    have hrm : r.modelId = m := by rw [(rowForModel_some_char hsome).1]
    rw [hcontra] at hrm
    rw [← hrm] at hsome
    have hnone : rowForModel cfg accounts filters showExhausted mid = none := by
      unfold rowForModel
      dsimp only
      rw [hcfg, hfam]
      simp
    rw [hnone] at hsome
    exact absurd hsome (by simp)
  · have hqi : accounts.foldl (uStep mid) []
        = accounts.filterMap fun a => (lookupKV a.limits mid).map pctOfLimit := by
      simpa using ufold_char mid accounts []
    have hne : accounts.foldl (uStep mid) [] ≠ [] := by
      rcases hacc with ⟨a, ha, hl⟩
      rcases Option.isSome_iff_exists.mp hl with ⟨limit, hlim⟩
      rw [hqi]
      intro hempty
      have : pctOfLimit limit ∈
          accounts.filterMap fun a => (lookupKV a.limits mid).map pctOfLimit :=
        List.mem_filterMap.mpr ⟨a, ha, by rw [hlim]; rfl⟩
      rw [hempty] at this
      exact absurd this (List.not_mem_nil _)
    have hu : uRowForModel cfg accounts true mid
        = some ⟨mid, getModelFamily mid, accounts.foldl (uStep mid) []⟩ := by
      unfold uRowForModel
      dsimp only
      rw [hcfg]
      simp [hne]
    exact ⟨⟨mid, getModelFamily mid, accounts.foldl (uStep mid) []⟩,
      List.mem_filterMap.mpr ⟨mid, hmem, hu⟩, rfl⟩

/-- Witness for claim C7: the unconfigured model `"mystery-x"` (family
`other`) is absent from the filtered rows but present in the unfiltered data
when hidden models are shown. -/
theorem claim7_witness :
    ∃ r ∈ getUnfilteredQuotaData ["mystery-x"] []
      [⟨"x@y", true, "ok", [("mystery-x", ⟨none, none⟩)]⟩] true, r.modelId = "mystery-x" :=
  (claim7_other_default_hidden ["mystery-x"] []
    [⟨"x@y", true, "ok", [("mystery-x", ⟨none, none⟩)]⟩] "mystery-x"
    (by decide) (by decide) (by decide) (by decide)).2

/-! Lookup lemmas for the selection structures. -/

theorem lookupKV_nil (k : String) : lookupKV ([] : List (String × α)) k = none := rfl

theorem lookupKV_cons (e : String × α) (l : List (String × α)) (k : String) :
    lookupKV (e :: l) k = if e.1 = k then some e.2 else lookupKV l k := by
  unfold lookupKV
  by_cases h : e.1 = k <;> simp [List.find?_cons, h]

theorem lookupKV_append (l1 l2 : List (String × α)) (k : String) :
    lookupKV (l1 ++ l2) k =
      match lookupKV l1 k with
      | some v => some v
      | none => lookupKV l2 k := by
  induction l1 with
  | nil => simp [lookupKV_nil]
  | cons e rest ih =>
    rw [List.cons_append, lookupKV_cons, lookupKV_cons]
    by_cases h : e.1 = k <;> simp [h, ih]

theorem setKey_lookup (m : List (String × List String)) (k : String) (v : List String)
    (g : String) :
    lookupKV (setKey m k v) g = if g = k then some v else lookupKV m g := by
  induction m with
  | nil =>
    simp only [setKey, lookupKV_cons, lookupKV_nil]
    by_cases h : g = k
    · simp [h]
    · have h2 : ¬ k = g := fun hc => h hc.symm
      simp [h, h2]
  | cons e rest ih =>
    simp only [setKey]
    by_cases he : e.1 = k
    · rw [if_pos he]
      rw [lookupKV_cons, lookupKV_cons]
      by_cases hg : g = k
      · simp [hg, he]
      · have : ¬ k = g := fun hc => hg hc.symm
        simp [hg, this, he]
    · rw [if_neg he, lookupKV_cons, lookupKV_cons, ih]
      by_cases hg : e.1 = g
      · have hgk : ¬ g = k := fun hc => he (hg.trans hc)
        simp [hg, hgk]
      · simp [hg]

theorem lookupKV_pushModelAt (ml : List (String × List String)) (k v g : String) :
    lookupKV (pushModelAt ml k v) g =
      if g = k then (lookupKV ml k).map (· ++ [v]) else lookupKV ml g := by
  induction ml with
  | nil =>
    by_cases h : g = k <;> simp [pushModelAt, lookupKV_nil, h]
  | cons e rest ih =>
    simp only [pushModelAt]
    by_cases he : e.1 = k
    · rw [if_pos he]
      rw [lookupKV_cons, lookupKV_cons]
      by_cases hg : g = k
      · simp [hg, he]
      · have h2 : ¬ k = g := fun hc => hg hc.symm
        have h3 : ¬ e.1 = g := fun hc => hg (hc.symm.trans he)
        simp [hg, h2, h3, he, lookupKV_cons]
    · rw [if_neg he, lookupKV_cons, lookupKV_cons, ih]
      by_cases hg : e.1 = g
      · have hgk : ¬ g = k := fun hc => he (hg.trans hc)
        simp [hg, hgk, lookupKV_cons]
      · by_cases hk : g = k
        · simp [hg, hk, he, lookupKV_cons]
        · simp [hg, hk, lookupKV_cons]

/-! Monotonicity and coverage of the `autoSelectNew` extension loops. -/

theorem modelExtendStep_families (f : String) (st : SelState) (m : String) :
    (modelExtendStep f st m).selectedFamilies = st.selectedFamilies := by
  unfold modelExtendStep
  split <;> rfl

theorem modelFold_families (ms : List String) (f : String) (st : SelState) :
    (ms.foldl (modelExtendStep f) st).selectedFamilies = st.selectedFamilies := by
  induction ms generalizing st with
  | nil => rfl
  | cons x xs ih => rw [List.foldl_cons, ih, modelExtendStep_families]

theorem modelExtendStep_model_mono (f : String) (st : SelState) (m g x : String)
    (h : x ∈ (lookupKV st.selectedModels g).getD []) :
    x ∈ (lookupKV (modelExtendStep f st m).selectedModels g).getD [] := by
  unfold modelExtendStep
  split
  · exact h
  · simp only
    rw [lookupKV_pushModelAt]
    by_cases hg : g = f
    · rw [if_pos hg]
      rw [hg] at h
      cases hl : lookupKV st.selectedModels f with
      | none => rw [hl] at h; simp at h
      | some v =>
        rw [hl] at h
        simp only [Option.getD_some] at h
        simp [List.mem_append, h]
    · rw [if_neg hg]
      exact h

theorem modelFold_model_mono (ms : List String) (f : String) (st : SelState) (g x : String)
    (h : x ∈ (lookupKV st.selectedModels g).getD []) :
    x ∈ (lookupKV ((ms.foldl (modelExtendStep f) st)).selectedModels g).getD [] := by
  induction ms generalizing st with
  | nil => exact h
  | cons y ys ih =>
    rw [List.foldl_cons]
    exact ih _ (modelExtendStep_model_mono f st y g x h)

theorem modelExtendStep_isSome (f : String) (st : SelState) (m : String)
    (h : (lookupKV st.selectedModels f).isSome = true) :
    (lookupKV (modelExtendStep f st m).selectedModels f).isSome = true := by
  unfold modelExtendStep
  split
  · exact h
  · simp only
    rw [lookupKV_pushModelAt, if_pos rfl]
    cases hl : lookupKV st.selectedModels f with
    | none => rw [hl] at h; simp at h
    | some v => simp

theorem modelFold_adds (ms : List String) (f : String) (st : SelState)
    (hk : (lookupKV st.selectedModels f).isSome = true) :
    ∀ m ∈ ms, m ∈ (lookupKV ((ms.foldl (modelExtendStep f) st)).selectedModels f).getD [] := by
  induction ms generalizing st with
  | nil => simp
  | cons y ys ih =>
    intro m hm
    rw [List.foldl_cons]
    rcases List.mem_cons.mp hm with rfl | hm2
    · have hy : m ∈ (lookupKV (modelExtendStep f st m).selectedModels f).getD [] := by
        unfold modelExtendStep
        split
        · assumption
        · simp only
          rw [lookupKV_pushModelAt, if_pos rfl]
          cases hl : lookupKV st.selectedModels f with
          | none => rw [hl] at hk; simp at hk
          | some v => simp
      exact modelFold_model_mono ys f _ f m hy
    · exact ih _ (modelExtendStep_isSome f st y hk) m hm2

theorem famExtendStep_fam_mono (tree : List (String × List String)) (st : SelState)
    (f g : String) (h : g ∈ st.selectedFamilies) :
    g ∈ (famExtendStep tree st f).selectedFamilies := by
  unfold famExtendStep
  dsimp only
  rw [modelFold_families]
  split
  · split
    · exact h
    · exact h
  · split
    · exact List.mem_append_left _ h
    · exact List.mem_append_left _ h

theorem famExtendStep_fam_self (tree : List (String × List String)) (st : SelState)
    (f : String) : f ∈ (famExtendStep tree st f).selectedFamilies := by
  unfold famExtendStep
  dsimp only
  rw [modelFold_families]
  split
  · rename_i hin
    split
    · exact hin
    · exact hin
  · split
    · exact List.mem_append_right _ (List.mem_singleton.mpr rfl)
    · exact List.mem_append_right _ (List.mem_singleton.mpr rfl)

theorem st2_lookup_isSome (st1 : SelState) (f : String) :
    (lookupKV (if (lookupKV st1.selectedModels f).isSome = true then st1
      else { st1 with selectedModels := st1.selectedModels ++ [(f, [])] }).selectedModels
      f).isSome = true := by
  split
  · rename_i h
    exact h
  · dsimp only
    rw [lookupKV_append]
    cases hl : lookupKV st1.selectedModels f with
    | none => simp [lookupKV_cons]
    | some v => simp

theorem st2_lookup_mono (st1 : SelState) (f g x : String)
    (h : x ∈ (lookupKV st1.selectedModels g).getD []) :
    x ∈ (lookupKV (if (lookupKV st1.selectedModels f).isSome = true then st1
      else { st1 with selectedModels := st1.selectedModels ++ [(f, [])] }).selectedModels
      g).getD [] := by
  split
  · exact h
  · dsimp only
    rw [lookupKV_append]
    cases hl : lookupKV st1.selectedModels g with
    | none =>
      rw [hl] at h
      simp at h
    | some v =>
      rw [hl] at h
      simpa using h

theorem famExtendStep_model_mono (tree : List (String × List String)) (st : SelState)
    (f g x : String) (h : x ∈ (lookupKV st.selectedModels g).getD []) :
    x ∈ (lookupKV (famExtendStep tree st f).selectedModels g).getD [] := by
  unfold famExtendStep
  dsimp only
  apply modelFold_model_mono
  split
  · exact st2_lookup_mono st f g x h
  · exact st2_lookup_mono { st with selectedFamilies := st.selectedFamilies ++ [f] } f g x h

theorem famExtendStep_adds (tree : List (String × List String)) (st : SelState)
    (f : String) :
    ∀ m ∈ (lookupKV tree f).getD [],
      m ∈ (lookupKV (famExtendStep tree st f).selectedModels f).getD [] := by
  unfold famExtendStep
  dsimp only
  intro m hm
  apply modelFold_adds _ _ _ _ m hm
  split
  · exact st2_lookup_isSome st f
  · exact st2_lookup_isSome { st with selectedFamilies := st.selectedFamilies ++ [f] } f

theorem famFold_fam_mono (families : List String) (tree : List (String × List String))
    (s : SelState) (g : String) (h : g ∈ s.selectedFamilies) :
    g ∈ (families.foldl (famExtendStep tree) s).selectedFamilies := by
  induction families generalizing s with
  | nil => exact h
  | cons f fs ih =>
    rw [List.foldl_cons]
    exact ih _ (famExtendStep_fam_mono tree s f g h)

theorem famFold_model_mono (families : List String) (tree : List (String × List String))
    (s : SelState) (g x : String) (h : x ∈ (lookupKV s.selectedModels g).getD []) :
    x ∈ (lookupKV (families.foldl (famExtendStep tree) s).selectedModels g).getD [] := by
  induction families generalizing s with
  | nil => exact h
  | cons f fs ih =>
    rw [List.foldl_cons]
    exact ih _ (famExtendStep_model_mono tree s f g x h)

theorem famFold_covers_fam (families : List String) (tree : List (String × List String))
    (s : SelState) : ∀ f ∈ families, f ∈ (families.foldl (famExtendStep tree) s).selectedFamilies := by
  induction families generalizing s with
  | nil => simp
  | cons f fs ih =>
    intro g hg
    rw [List.foldl_cons]
    rcases List.mem_cons.mp hg with rfl | hg2
    · exact famFold_fam_mono fs tree _ g (famExtendStep_fam_self tree s g)
    · exact ih _ g hg2

theorem famFold_covers_models (families : List String) (tree : List (String × List String))
    (s : SelState) :
    ∀ f ∈ families, ∀ m ∈ (lookupKV tree f).getD [],
      m ∈ (lookupKV (families.foldl (famExtendStep tree) s).selectedModels f).getD [] := by
  induction families generalizing s with
  | nil => simp
  | cons f fs ih =>
    intro g hg m hm
    rw [List.foldl_cons]
    rcases List.mem_cons.mp hg with rfl | hg2
    · exact famFold_model_mono fs tree _ g m (famExtendStep_adds tree s g m hm)
    · exact ih _ g hg2 m hm

theorem selectAllFold_lookup (families : List String) (tree : List (String × List String))
    (init : List (String × List String)) (f : String) :
    lookupKV (families.foldl (fun m f2 => setKey m f2 ((lookupKV tree f2).getD [])) init) f
      = if f ∈ families then some ((lookupKV tree f).getD []) else lookupKV init f := by
  induction families generalizing init with
  | nil => simp
  | cons f2 fs ih =>
    rw [List.foldl_cons, ih, setKey_lookup]
    by_cases h1 : f ∈ fs
    · simp [h1, List.mem_cons]
    · by_cases h2 : f = f2
      · simp [h1, h2]
      · have : ¬ f ∈ f2 :: fs := by
          intro hc
          rcases List.mem_cons.mp hc with hc | hc
          · exact h2 hc
          · exact h1 hc
        simp [h1, h2, this]

/-- Claim C3 counterexample: with `selectedFamilies = ["claude"]` non-empty
and model `"opus"` explicitly deselected (absent from
`selectedModels["claude"]`) while still discovered in the tree, the
extension step re-adds `"opus"`; and after `deselectAll` the first-run
branch re-selects everything. Both revert explicit deselections, contrary to
the claim. -/
theorem claim3_cx :
    (autoSelectNew ["claude"] [("claude", ["opus"])]
      ⟨"model", ["claude"], [("claude", [])]⟩).selectedModels = [("claude", ["opus"])] ∧
    (autoSelectNew ["claude"] [("claude", ["opus"])]
      (deselectAll ⟨"model", ["claude"], [("claude", ["opus"])]⟩)).selectedModels
      = [("claude", ["opus"])] := by
  decide

/-- Claim C3 (amended): `autoSelectNew` only appends — every previously
selected family and model remains selected — and afterwards every discovered
family is selected and every discovered model under a discovered family is
selected. Consequently a still-discovered family or model the user explicitly
deselected is re-added by the next refresh (and when both selection
structures are empty, e.g. after `deselectAll`, the first-run branch selects
everything): explicit deselections of still-present items are reverted, not
preserved. -/
theorem claim3_auto_extend (families : List String) (tree : List (String × List String))
    (s : SelState) :
    (∀ g ∈ s.selectedFamilies, g ∈ (autoSelectNew families tree s).selectedFamilies) ∧
    (∀ g x, x ∈ (lookupKV s.selectedModels g).getD [] →
      x ∈ (lookupKV (autoSelectNew families tree s).selectedModels g).getD []) ∧
    (∀ f ∈ families, f ∈ (autoSelectNew families tree s).selectedFamilies) ∧
    (∀ f ∈ families, ∀ m ∈ (lookupKV tree f).getD [],
      m ∈ (lookupKV (autoSelectNew families tree s).selectedModels f).getD []) := by
  unfold autoSelectNew
  split
  · rename_i hempty
    dsimp only
    refine ⟨?_, ?_, ?_, ?_⟩
    · intro g hg
      rw [hempty.1] at hg
      simp at hg
    · intro g x hx
      rw [hempty.2] at hx
      simp [lookupKV_nil] at hx
    · intro f hf
      exact hf
    · intro f hf m hm
      rw [hempty.2, selectAllFold_lookup, if_pos hf]
      simpa using hm
  · exact ⟨fun g hg => famFold_fam_mono families tree s g hg,
      fun g x hx => famFold_model_mono families tree s g x hx,
      famFold_covers_fam families tree s,
      famFold_covers_models families tree s⟩

/-- Witness for claim C3's amended theorem: the new family `"gemini"` is
appended and the still-selected `"sonnet"` stays selected. -/
theorem claim3_witness :
    "gemini" ∈ (autoSelectNew ["claude", "gemini"]
      [("claude", ["opus"]), ("gemini", ["flash"])]
      ⟨"model", ["claude"], [("claude", ["sonnet"])]⟩).selectedFamilies ∧
    "sonnet" ∈ (lookupKV (autoSelectNew ["claude", "gemini"]
      [("claude", ["opus"]), ("gemini", ["flash"])]
      ⟨"model", ["claude"], [("claude", ["sonnet"])]⟩).selectedModels "claude").getD [] :=
  ⟨(claim3_auto_extend ["claude", "gemini"] [("claude", ["opus"]), ("gemini", ["flash"])]
      ⟨"model", ["claude"], [("claude", ["sonnet"])]⟩).2.2.1 "gemini" (by decide),
   (claim3_auto_extend ["claude", "gemini"] [("claude", ["opus"]), ("gemini", ["flash"])]
      ⟨"model", ["claude"], [("claude", ["sonnet"])]⟩).2.1 "claude" "sonnet" (by decide)⟩

/-! Claim C8: the usage tally, its sort, and the rebuilt selection. -/

theorem addUsage_lookup (u : List (String × ℤ)) (k : String) (c : ℤ) (g : String) :
    lookupKV (addUsage u k c) g =
      if g = k then some ((lookupKV u k).getD 0 + c) else lookupKV u g := by
  induction u with
  | nil =>
    by_cases h : g = k
    · simp [addUsage, lookupKV_cons, lookupKV_nil, h]
    · have h2 : ¬ k = g := fun hc => h hc.symm
      simp [addUsage, lookupKV_cons, lookupKV_nil, h, h2]
  | cons e rest ih =>
    simp only [addUsage]
    by_cases he : e.1 = k
    · rw [if_pos he, lookupKV_cons, lookupKV_cons]
      by_cases hg : g = k
      · simp [hg, he]
      · have h2 : ¬ k = g := fun hc => hg hc.symm
        have h3 : ¬ e.1 = g := fun hc => hg (hc.symm.trans he)
        simp [hg, h2, h3, he, lookupKV_cons]
    · rw [if_neg he, lookupKV_cons, lookupKV_cons, ih]
      by_cases hg : e.1 = g
      · have hgk : ¬ g = k := fun hc => he (hg.trans hc)
        simp [hg, hgk, lookupKV_cons]
      · by_cases hk : g = k
        · simp [hg, hk, he, lookupKV_cons]
        · simp [hg, hk, lookupKV_cons]

/-- The per-bucket contribution of one `family:model` key: summed counts of
every matching model entry in every family object of the bucket. -/
def bucketKeyCount (b : Bucket) (key : String) : ℤ :=
  (b.map fun e =>
    match e.2 with
    | BVal.num _ => 0
    | BVal.obj m =>
      if e.1 = "_total" then 0
      else ((m.filter fun me => me.1 ≠ "_subtotal" ∧ e.1 ++ ":" ++ me.1 = key).map
        (·.2)).sum).sum

/-- The summed usage of one `family:model` key over exactly the buckets whose
timestamp is on-or-after `now` minus 24 hours. -/
def windowKeySum (history : List (ℤ × Bucket)) (now : ℤ) (key : String) : ℤ :=
  ((history.filter fun p => ¬ p.1 < now - 86400000).map fun p =>
    bucketKeyCount p.2 key).sum

theorem usageModelStep_fold_value (fam : String) (m : List (String × ℤ))
    (u : List (String × ℤ)) (key : String) :
    (lookupKV (m.foldl (usageModelStep fam) u) key).getD 0
      = (lookupKV u key).getD 0
        + ((m.filter fun me => me.1 ≠ "_subtotal" ∧ fam ++ ":" ++ me.1 = key).map
          (·.2)).sum := by
  induction m generalizing u with
  | nil => simp
  | cons me rest ih =>
    rw [List.foldl_cons, ih]
    by_cases hs : me.1 = "_subtotal"
    · simp [usageModelStep, hs, List.filter_cons]
    · by_cases hk : fam ++ ":" ++ me.1 = key
      · simp only [usageModelStep, if_neg hs, List.filter_cons]
        rw [addUsage_lookup, if_pos hk.symm]
        simp [hs, hk]
        omega
      · simp only [usageModelStep, if_neg hs, List.filter_cons]
        rw [addUsage_lookup, if_neg (fun hc : key = fam ++ ":" ++ me.1 => hk hc.symm)]
        simp [hs, hk]

theorem usageBucketStep_fold_value (b : Bucket) (u : List (String × ℤ)) (key : String) :
    (lookupKV (b.foldl usageBucketStep u) key).getD 0
      = (lookupKV u key).getD 0 + bucketKeyCount b key := by
  induction b generalizing u with
  | nil => simp [bucketKeyCount]
  | cons e rest ih =>
    rw [List.foldl_cons, ih]
    unfold bucketKeyCount
    cases hv : e.2 with
    | num nn => simp [usageBucketStep, hv]
    | obj m =>
      by_cases ht : e.1 = "_total"
      · simp [usageBucketStep, hv, ht]
      · simp only [usageBucketStep, hv, if_neg ht, List.map_cons, List.sum_cons]
        rw [usageModelStep_fold_value]
        omega

theorem usageEntries_value (history : List (ℤ × Bucket)) (now : ℤ) (key : String) :
    (lookupKV (usageEntries history now) key).getD 0 = windowKeySum history now key := by
  unfold usageEntries windowKeySum
  have main : ∀ (h : List (ℤ × Bucket)) (u : List (String × ℤ)),
      (lookupKV (h.foldl
        (fun u p => if p.1 < now - 86400000 then u else p.2.foldl usageBucketStep u) u)
        key).getD 0
      = (lookupKV u key).getD 0
        + ((h.filter fun p => ¬ p.1 < now - 86400000).map fun p =>
            bucketKeyCount p.2 key).sum := by
    intro h
    induction h with
    | nil => simp
    | cons p rest ih =>
      intro u
      rw [List.foldl_cons]
      by_cases hw : p.1 < now - 86400000
      · rw [if_pos hw, ih u, List.filter_cons, if_neg (by simp [hw])]
      · rw [if_neg hw, ih (p.2.foldl usageBucketStep u), usageBucketStep_fold_value,
          List.filter_cons, if_pos (by simp [hw]), List.map_cons, List.sum_cons]
        omega
  rw [main history []]
  simp [lookupKV_nil]

theorem insertUsage_perm (x : String × ℤ) (l : List (String × ℤ)) :
    (insertUsage x l).Perm (x :: l) := by
  induction l with
  | nil => simp [insertUsage]
  | cons y ys ih =>
    simp only [insertUsage]
    split
    · exact (ih.cons y).trans (List.Perm.swap x y ys)
    · exact List.Perm.refl _

theorem sortUsage_perm (l : List (String × ℤ)) : (sortUsage l).Perm l := by
  induction l with
  | nil => simp [sortUsage]
  | cons x xs ih =>
    simp only [sortUsage, List.foldr] at *
    exact (insertUsage_perm x _).trans (ih.cons x)

theorem insertUsage_sorted (x : String × ℤ) (l : List (String × ℤ))
    (h : l.Pairwise fun a b => b.2 ≤ a.2) :
    (insertUsage x l).Pairwise fun a b => b.2 ≤ a.2 := by
  induction l with
  | nil => simp [insertUsage]
  | cons y ys ih =>
    rcases List.pairwise_cons.mp h with ⟨hy, hys⟩
    simp only [insertUsage]
    split
    · rename_i hxy
      refine List.Pairwise.cons ?_ (ih hys)
      intro z hz
      rcases List.mem_cons.mp ((insertUsage_perm x ys).mem_iff.mp hz) with rfl | hz2
      · omega
      · exact hy z hz2
    · rename_i hxy
      push_neg at hxy
      refine List.Pairwise.cons ?_ (List.Pairwise.cons hy hys)
      intro z hz
      rcases List.mem_cons.mp hz with rfl | hz2
      · omega
      · exact le_trans (hy z hz2) hxy

theorem sortUsage_sorted (l : List (String × ℤ)) :
    (sortUsage l).Pairwise fun a b => b.2 ≤ a.2 := by
  induction l with
  | nil => simp [sortUsage]
  | cons x xs ih =>
    simp only [sortUsage, List.foldr] at *
    exact insertUsage_sorted x _ ih

theorem insertUsage_filter_eq (x : String × ℤ) (l : List (String × ℤ)) (c : ℤ)
    (hx : x.2 = c) :
    (insertUsage x l).filter (fun e => e.2 = c) = x :: l.filter (fun e => e.2 = c) := by
  induction l with
  | nil => simp [insertUsage, hx]
  | cons y ys ih =>
    simp only [insertUsage]
    split
    · rename_i hlt
      have hy : ¬ (y.2 = c) := by omega
      rw [List.filter_cons, if_neg (by simpa using hy), ih, List.filter_cons,
        if_neg (by simpa using hy)]
    · rw [List.filter_cons, if_pos (by simpa using hx)]

theorem insertUsage_filter_ne (x : String × ℤ) (l : List (String × ℤ)) (c : ℤ)
    (hx : ¬ x.2 = c) :
    (insertUsage x l).filter (fun e => e.2 = c) = l.filter (fun e => e.2 = c) := by
  induction l with
  | nil => simp [insertUsage, hx]
  | cons y ys ih =>
    simp only [insertUsage]
    split
    · rw [List.filter_cons, ih, List.filter_cons]
    · rw [List.filter_cons, if_neg (by simpa using hx)]

theorem sortUsage_stable (l : List (String × ℤ)) (c : ℤ) :
    (sortUsage l).filter (fun e => e.2 = c) = l.filter (fun e => e.2 = c) := by
  induction l with
  | nil => simp [sortUsage]
  | cons x xs ih =>
    have hs : sortUsage (x :: xs) = insertUsage x (sortUsage xs) := rfl
    rw [hs]
    by_cases hx : x.2 = c
    · rw [insertUsage_filter_eq x _ c hx, ih, List.filter_cons, if_pos (by simpa using hx)]
    · rw [insertUsage_filter_ne x _ c hx, ih, List.filter_cons, if_neg (by simpa using hx)]

theorem splitOnCharL_no_sep (c : Char) (l : List Char) (h : c ∉ l) :
    splitOnCharL c l = [l] := by
  induction l with
  | nil => rfl
  | cons x xs ih =>
    have hx : ¬ x = c := fun hc => h (hc ▸ List.mem_cons_self x xs)
    have hxs : c ∉ xs := fun hc => h (List.mem_cons_of_mem x hc)
    simp only [splitOnCharL, if_neg hx, ih hxs]

theorem splitOnCharL_sep (c : Char) (f m : List Char) (hf : c ∉ f) :
    splitOnCharL c (f ++ c :: m) = f :: splitOnCharL c m := by
  induction f with
  | nil => simp [splitOnCharL]
  | cons x xs ih =>
    have hx : ¬ x = c := fun hc => hf (hc ▸ List.mem_cons_self x xs)
    have hxs : c ∉ xs := fun hc => hf (List.mem_cons_of_mem x hc)
    simp only [List.cons_append, splitOnCharL, if_neg hx, List.append_eq, ih hxs]

theorem strSplitChar_concat (f m : String) (hf : ':' ∉ f.data) (hm : ':' ∉ m.data) :
    strSplitChar ':' (f ++ ":" ++ m) = [f, m] := by
  unfold strSplitChar
  have hdata : (f ++ ":" ++ m).data = f.data ++ ':' :: m.data := by
    rw [String.data_append, String.data_append, List.append_assoc]
    rfl
  rw [hdata, splitOnCharL_sep _ _ _ hf, splitOnCharL_no_sep _ _ hm]
  rfl

theorem keyFam_concat (f m : String) (hf : ':' ∉ f.data) (hm : ':' ∉ m.data) :
    keyFam (f ++ ":" ++ m) = f := by
  rw [keyFam, strSplitChar_concat f m hf hm]
  rfl

theorem keyModel_concat (f m : String) (hf : ':' ∉ f.data) (hm : ':' ∉ m.data) :
    keyModel (f ++ ":" ++ m) = m := by
  rw [keyModel, strSplitChar_concat f m hf hm]
  rfl

/-- Decidable well-formedness of one bucket entry for `autoSelectTopN`: no
colon in the family key, nor in any model name of a family object (colons
would collide with the `family:model` key encoding). -/
def colonFreeEntry (e : String × BVal) : Bool :=
  decide (':' ∉ e.1.data) &&
    (match e.2 with
     | BVal.num _ => true
     | BVal.obj m => m.all fun me => decide (':' ∉ me.1.data))

/-- Well-formedness of a history series for `autoSelectTopN`: every family key
and model name is colon-free. -/
def colonFreeHistory (history : List (ℤ × Bucket)) : Prop :=
  ∀ p ∈ history, ∀ e ∈ p.2, colonFreeEntry e = true

/-- Shape of a usage key: `family ++ ":" ++ model` with colon-free parts. -/
def KeyShaped (k : String) : Prop :=
  ∃ f m, k = f ++ ":" ++ m ∧ ':' ∉ f.data ∧ ':' ∉ m.data

theorem addUsage_key_pred {P : String → Prop} {u : List (String × ℤ)} {k : String} {c : ℤ}
    (hu : ∀ kv ∈ u, P kv.1) (hk : P k) : ∀ kv ∈ addUsage u k c, P kv.1 := by
  induction u with
  | nil =>
    intro kv hkv
    rcases List.mem_singleton.mp hkv with rfl
    exact hk
  | cons e rest ih =>
    intro kv hkv
    simp only [addUsage] at hkv
    split at hkv
    · rcases List.mem_cons.mp hkv with rfl | h2
      · exact hu e (List.mem_cons_self e rest)
      · exact hu kv (List.mem_cons_of_mem e h2)
    · rcases List.mem_cons.mp hkv with rfl | h2
      · exact hu kv (List.mem_cons_self kv rest)
      · exact ih (fun kv2 hkv2 => hu kv2 (List.mem_cons_of_mem e hkv2)) kv h2

theorem usageEntries_keys_shaped (history : List (ℤ × Bucket)) (now : ℤ)
    (hcf : colonFreeHistory history) :
    ∀ kv ∈ usageEntries history now, KeyShaped kv.1 := by
  unfold usageEntries
  have hmodel : ∀ (fam : String) (m : List (String × ℤ)) (u : List (String × ℤ)),
      ':' ∉ fam.data → (∀ me ∈ m, ':' ∉ me.1.data) → (∀ kv ∈ u, KeyShaped kv.1) →
      ∀ kv ∈ m.foldl (usageModelStep fam) u, KeyShaped kv.1 := by
    intro fam m
    induction m with
    | nil => intro u _ _ hu; exact hu
    | cons me rest ih =>
      intro u hfam hms hu
      rw [List.foldl_cons]
      apply ih _ hfam (fun me2 hme2 => hms me2 (List.mem_cons_of_mem me hme2))
      unfold usageModelStep
      split
      · exact hu
      · exact addUsage_key_pred hu
          ⟨fam, me.1, rfl, hfam, hms me (List.mem_cons_self me rest)⟩
  have hbucket : ∀ (b : Bucket) (u : List (String × ℤ)),
      (∀ e ∈ b, colonFreeEntry e = true) → (∀ kv ∈ u, KeyShaped kv.1) →
      ∀ kv ∈ b.foldl usageBucketStep u, KeyShaped kv.1 := by
    intro b
    induction b with
    | nil => intro u _ hu; exact hu
    | cons e rest ih =>
      intro u hb hu
      rw [List.foldl_cons]
      apply ih _ (fun e2 he2 => hb e2 (List.mem_cons_of_mem e he2))
      have hce := hb e (List.mem_cons_self e rest)
      rw [colonFreeEntry, Bool.and_eq_true] at hce
      cases hv : e.2 with
      | num nn =>
        simp only [usageBucketStep, hv]
        exact hu
      | obj m =>
        simp only [usageBucketStep, hv]
        split
        · exact hu
        · apply hmodel e.1 m u (by simpa using hce.1) ?_ hu
          intro me hme
          rw [hv] at hce
          have h2 := hce.2
          rw [List.all_eq_true] at h2
          simpa using h2 me hme
  have hhist : ∀ (h : List (ℤ × Bucket)) (u : List (String × ℤ)),
      (∀ p ∈ h, ∀ e ∈ p.2, colonFreeEntry e = true) → (∀ kv ∈ u, KeyShaped kv.1) →
      ∀ kv ∈ h.foldl
        (fun u p => if p.1 < now - 86400000 then u else p.2.foldl usageBucketStep u) u,
        KeyShaped kv.1 := by
    intro h
    induction h with
    | nil => intro u _ hu; exact hu
    | cons p rest ih =>
      intro u hh hu
      rw [List.foldl_cons]
      apply ih _ (fun p2 hp2 => hh p2 (List.mem_cons_of_mem p hp2))
      split
      · exact hu
      · exact hbucket p.2 u (hh p (List.mem_cons_self p rest)) hu
  exact hhist history [] hcf (by simp)

theorem st2_lookup_self (st1 : SelState) (f : String) :
    lookupKV (if (lookupKV st1.selectedModels f).isSome = true then st1
      else { st1 with selectedModels := st1.selectedModels ++ [(f, [])] }).selectedModels f
    = some ((lookupKV st1.selectedModels f).getD []) := by
  split
  · rename_i h
    rcases Option.isSome_iff_exists.mp h with ⟨v, hv⟩
    rw [hv]
    rfl
  · rename_i h
    dsimp only
    rw [lookupKV_append]
    cases hl : lookupKV st1.selectedModels f with
    | none => simp [lookupKV_cons]
    | some v => exact absurd (by rw [hl]; rfl) h

theorem st2_lookup_other (st1 : SelState) (f g : String) (hg : ¬ g = f) :
    lookupKV (if (lookupKV st1.selectedModels f).isSome = true then st1
      else { st1 with selectedModels := st1.selectedModels ++ [(f, [])] }).selectedModels g
    = lookupKV st1.selectedModels g := by
  split
  · rfl
  · dsimp only
    rw [lookupKV_append]
    cases hl : lookupKV st1.selectedModels g with
    | none =>
      have h2 : ¬ f = g := fun hc => hg hc.symm
      simp [lookupKV_cons, lookupKV_nil, h2]
    | some v => rfl

theorem topSelStep_families_iff (st : SelState) (kv : String × ℤ) (g : String) :
    g ∈ (topSelStep st kv).selectedFamilies ↔
      g ∈ st.selectedFamilies ∨ g = keyFam kv.1 := by
  unfold topSelStep
  dsimp only
  have hfam : ∀ (st1 : SelState),
      (if (lookupKV st1.selectedModels (keyFam kv.1)).isSome = true then st1
        else { st1 with selectedModels := st1.selectedModels ++ [(keyFam kv.1, [])]
          }).selectedFamilies = st1.selectedFamilies := by
    intro st1
    split <;> rfl
  rw [hfam]
  split
  · rename_i hin
    constructor
    · exact fun h => Or.inl h
    · rintro (h | rfl)
      · exact h
      · exact hin
  · simp [List.mem_append]

theorem topSelStep_models_iff (st : SelState) (kv : String × ℤ) (g x : String) :
    x ∈ (lookupKV (topSelStep st kv).selectedModels g).getD [] ↔
      x ∈ (lookupKV st.selectedModels g).getD [] ∨
        (g = keyFam kv.1 ∧ x = keyModel kv.1) := by
  unfold topSelStep
  dsimp only
  rw [lookupKV_pushModelAt]
  have hst1 : (if keyFam kv.1 ∈ st.selectedFamilies then st
      else { st with selectedFamilies := st.selectedFamilies ++ [keyFam kv.1]
        }).selectedModels = st.selectedModels := by
    split <;> rfl
  by_cases hg : g = keyFam kv.1
  · rw [if_pos hg]
    rw [st2_lookup_self, hst1, hg]
    dsimp only [Option.map, Option.getD]
    rw [List.mem_append, List.mem_singleton]
    constructor
    · rintro (h | rfl)
      · exact Or.inl h
      · exact Or.inr ⟨rfl, rfl⟩
    · rintro (h | ⟨_, rfl⟩)
      · exact Or.inl h
      · exact Or.inr rfl
  · rw [if_neg hg, st2_lookup_other _ _ _ hg, hst1]
    simp [hg]

theorem topFold_families_iff (l : List (String × ℤ)) (st : SelState) (g : String) :
    g ∈ (l.foldl topSelStep st).selectedFamilies ↔
      g ∈ st.selectedFamilies ∨ ∃ kv ∈ l, g = keyFam kv.1 := by
  induction l generalizing st with
  | nil => simp
  | cons kv rest ih =>
    rw [List.foldl_cons, ih, topSelStep_families_iff st kv g, List.exists_mem_cons_iff]
    tauto

theorem topFold_models_iff (l : List (String × ℤ)) (st : SelState) (g x : String) :
    x ∈ (lookupKV (l.foldl topSelStep st).selectedModels g).getD [] ↔
      x ∈ (lookupKV st.selectedModels g).getD [] ∨
        ∃ kv ∈ l, g = keyFam kv.1 ∧ x = keyModel kv.1 := by
  induction l generalizing st with
  | nil => simp
  | cons kv rest ih =>
    rw [List.foldl_cons, ih, topSelStep_models_iff, List.exists_mem_cons_iff]
    tauto

/-- Claim C8: `autoSelectTopN` tallies usage per `family:model` pair over
exactly the buckets of the trailing 24-hour window (`usageEntries` agrees with
`windowKeySum` on every key), ranks pairs by total usage descending with ties
kept in original order (the sort is a permutation, pairwise descending, and
stable on each count class), takes the first `n` (default 5), and the
resulting selection contains exactly the pairs of that prefix and their
families, independently of the prior selection `s` (full replacement). Keys
are decomposable because family keys and model names are colon-free
(`colonFreeHistory`). -/
theorem claim8_topn_selection (history : List (ℤ × Bucket)) (now : ℤ) (n : ℕ) (s : SelState)
    (hcf : colonFreeHistory history) :
    (∀ key, (lookupKV (usageEntries history now) key).getD 0 = windowKeySum history now key) ∧
    (sortUsage (usageEntries history now)).Perm (usageEntries history now) ∧
    (sortUsage (usageEntries history now)).Pairwise (fun a b => b.2 ≤ a.2) ∧
    (∀ c : ℤ, (sortUsage (usageEntries history now)).filter (fun e => e.2 = c)
      = (usageEntries history now).filter (fun e => e.2 = c)) ∧
    (∀ f m : String, ':' ∉ f.data → ':' ∉ m.data →
      (m ∈ (lookupKV (autoSelectTopN history now n s).selectedModels f).getD [] ↔
       ∃ c : ℤ, (f ++ ":" ++ m, c) ∈ (sortUsage (usageEntries history now)).take n)) ∧
    (∀ f : String, ':' ∉ f.data →
      (f ∈ (autoSelectTopN history now n s).selectedFamilies ↔
       ∃ m : String, ∃ c : ℤ, ':' ∉ m.data ∧
         (f ++ ":" ++ m, c) ∈ (sortUsage (usageEntries history now)).take n)) ∧
    autoSelectTopNDefault history now s = autoSelectTopN history now 5 s := by
  have htop_shape : ∀ kv ∈ (sortUsage (usageEntries history now)).take n, KeyShaped kv.1 := by
    intro kv hkv
    exact usageEntries_keys_shaped history now hcf kv
      ((sortUsage_perm _).mem_iff.mp (List.take_subset n _ hkv))
  refine ⟨usageEntries_value history now, sortUsage_perm _, sortUsage_sorted _,
    sortUsage_stable _, ?_, ?_, rfl⟩
  · intro f m hf hm
    unfold autoSelectTopN
    dsimp only
    rw [topFold_models_iff]
    simp only [lookupKV_nil, Option.getD_none, List.not_mem_nil, false_or]
    constructor
    · rintro ⟨kv, hkv, hfeq, hmeq⟩
      rcases htop_shape kv hkv with ⟨f2, m2, hk, hf2, hm2⟩
      have hff : f = f2 := by rw [hfeq, hk, keyFam_concat f2 m2 hf2 hm2]
      have hmm : m = m2 := by rw [hmeq, hk, keyModel_concat f2 m2 hf2 hm2]
      refine ⟨kv.2, ?_⟩
      have : f ++ ":" ++ m = kv.1 := by rw [hff, hmm, hk]
      rw [this]
      exact hkv
    · rintro ⟨c, hc⟩
      exact ⟨(f ++ ":" ++ m, c), hc,
        (keyFam_concat f m hf hm).symm, (keyModel_concat f m hf hm).symm⟩
  · intro f hf
    unfold autoSelectTopN
    dsimp only
    rw [topFold_families_iff]
    simp only [List.not_mem_nil, false_or]
    constructor
    · rintro ⟨kv, hkv, hfeq⟩
      rcases htop_shape kv hkv with ⟨f2, m2, hk, hf2, hm2⟩
      have hff : f = f2 := by rw [hfeq, hk, keyFam_concat f2 m2 hf2 hm2]
      refine ⟨m2, kv.2, hm2, ?_⟩
      have : f ++ ":" ++ m2 = kv.1 := by rw [hff, hk]
      rw [this]
      exact hkv
    · rintro ⟨m, c, hm, hc⟩
      exact ⟨(f ++ ":" ++ m, c), hc, (keyFam_concat f m hf hm).symm⟩

instance colonFreeHistory.decidable (history : List (ℤ × Bucket)) :
    Decidable (colonFreeHistory history) := by
  unfold colonFreeHistory
  infer_instance

/-- Witness for claim C8: with 24-hour usage `claude:opus = 30`,
`claude:sonnet = 10`, `gemini:flash = 5` and `n = 2`, the rebuilt selection
contains `claude → opus`. -/
theorem claim8_witness :
    "opus" ∈ (lookupKV (autoSelectTopN
      [(0, [("claude", BVal.obj [("opus", 30), ("sonnet", 10)]),
            ("gemini", BVal.obj [("flash", 5)])])] 0 2
      ⟨"model", ["x"], [("x", ["y"])]⟩).selectedModels "claude").getD [] :=
  ((claim8_topn_selection
      [(0, [("claude", BVal.obj [("opus", 30), ("sonnet", 10)]),
            ("gemini", BVal.obj [("flash", 5)])])] 0 2
      ⟨"model", ["x"], [("x", ["y"])]⟩ (by decide)).2.2.2.2.1
    "claude" "opus" (by decide) (by decide)).mpr ⟨30, by decide⟩
